import Mathlib

/-
Shallow embedding of src/day5/src/main.rs (the "almanac" interval-remapping
solution).  Rust u64 and usize values are modeled as Nat: the puzzle domain is
non-negative integers, and the Rust build traps on arithmetic overflow rather
than silently wrapping, so no wrapping execution is modeled.  A Rust Vec used
as a stack (pop from the back, push to the back) is modeled as a Lean list
whose head is the back of the Vec.  Fallible code returns Except or Option; a
Rust panic (out-of-bounds slice or index) is modeled by a dedicated error or
by the outer layer of an Option, as documented at each definition.
-/

/-- Error type of the program (AlmanacError in the source), extended with a
constructor for each distinct failure surface: parseIntError models a
ParseIntError coming out of str::parse, and panicked models a Rust panic
(out-of-bounds slice indexing), which is not a returned error in Rust but must
be distinguished from ordinary Err values in the model. -/
inductive AlmanacError where
  | invalidInput
  | invalidRangeString
  | parseIntError
  | panicked
deriving DecidableEq, Repr

/-- One remap rule (struct Range in the source): fields source_start,
dest_start, range_len, in declaration order. -/
structure Range where
  source_start : Nat
  dest_start : Nat
  range_len : Nat
deriving DecidableEq, Repr

/-- Range::in_range: returns some (dest_start + (source - source_start)) when
source_start <= source < source_start + range_len, none otherwise. -/
def Range.in_range (r : Range) (source : Nat) : Option Nat :=
  if source ≥ r.source_start ∧ source < r.source_start + r.range_len then
    some (r.dest_start + (source - r.source_start))
  else
    none

/-- One translation layer (struct AlMap in the source): an ordered list of
rules. -/
structure AlMap where
  ranges : List Range
deriving DecidableEq, Repr

/-- AlMap::convert (the AlmanacConverter impl): scan the rules in stored
order, return the first in_range hit, and fall through to the source value
when no rule contains it. -/
def AlMap.convert (m : AlMap) (source : Nat) : Nat :=
  (m.ranges.findSome? (fun rng => rng.in_range source)).getD source

/-- The whole almanac (struct Almanac in the source): the initial seed list
and the seven translation layers. -/
structure Almanac where
  init_seeds : List Nat
  seed_soil : AlMap
  soil_fert : AlMap
  fert_water : AlMap
  water_light : AlMap
  light_temp : AlMap
  temp_humid : AlMap
  humid_loc : AlMap

/-- Almanac::get_conversion: push one seed through the seven layers, one
scalar at a time. -/
def Almanac.get_conversion (a : Almanac) (seed : Nat) : Nat :=
  let soil := a.seed_soil.convert seed
  let fert := a.soil_fert.convert soil
  let water := a.fert_water.convert fert
  let light := a.water_light.convert water
  let temp := a.light_temp.convert light
  let humid := a.temp_humid.convert temp
  a.humid_loc.convert humid

/-- Genuine-overlap test of the source's inner loop: the interval
[src.1, src.1 + src.2) meets the rule's source domain in the sense of
max src.1 t.source_start < min (src.1 + src.2) (t.source_start + t.range_len),
exactly the overlap_start < overlap_end test of Almanac::map_ranges. -/
def overlapsRange (src : Nat × Nat) (t : Range) : Prop :=
  max src.1 t.source_start < min (src.1 + src.2) (t.source_start + t.range_len)

instance (src : Nat × Nat) (t : Range) : Decidable (overlapsRange src t) := by
  unfold overlapsRange
  infer_instance

/-- The inner for-loop of Almanac::map_ranges: walk the stage's rules in
stored order and return the first rule with a genuine overlap against the
popped interval, together with its overlap_start and overlap_end; none when
the loop falls through with overlap_found still false. -/
def scanRules (src : Nat × Nat) : List Range → Option (Range × Nat × Nat)
  | [] => none
  | t :: ts =>
    let overlap_start := max src.1 t.source_start
    let overlap_end := min (src.1 + src.2) (t.source_start + t.range_len)
    if overlap_start < overlap_end then
      some (t, overlap_start, overlap_end)
    else
      scanRules src ts

/-- Termination measure for the worklist loop: the sum of 2 ^ length over the
pending intervals. -/
def wMeasure (w : List (Nat × Nat)) : Nat :=
  (w.map (fun p => 2 ^ p.2)).sum

theorem wMeasure_nil : wMeasure [] = 0 := rfl

theorem wMeasure_cons (x : Nat × Nat) (l : List (Nat × Nat)) :
    wMeasure (x :: l) = 2 ^ x.2 + wMeasure l := by
  simp [wMeasure]

theorem wMeasure_pair_cons (a b : Nat) (l : List (Nat × Nat)) :
    wMeasure ((a, b) :: l) = 2 ^ b + wMeasure l := by
  simp [wMeasure]

theorem scanRules_eq_none_iff (src : Nat × Nat) (rules : List Range) :
    scanRules src rules = none ↔ ∀ t ∈ rules, ¬ overlapsRange src t := by
  induction rules with
  | nil => simp [scanRules]
  | cons r rs ih =>
    simp only [scanRules]
    split
    · rename_i hlt
      constructor
      · intro hc
        exact absurd hc (by simp)
      · intro hall
        exact absurd hlt (hall r (by simp))
    · rename_i hnlt
      rw [ih]
      constructor
      · intro hall t ht
        rcases List.mem_cons.mp ht with h1 | h2
        · subst h1; exact hnlt
        · exact hall t h2
      · intro hall t ht
        exact hall t (List.mem_cons_of_mem r ht)

theorem scanRules_some_spec {src : Nat × Nat} {rules : List Range} {t : Range}
    {os oe : Nat} (h : scanRules src rules = some (t, os, oe)) :
    os = max src.1 t.source_start ∧
    oe = min (src.1 + src.2) (t.source_start + t.range_len) ∧ os < oe := by
  induction rules with
  | nil => simp [scanRules] at h
  | cons r rs ih =>
    simp only [scanRules] at h
    split at h
    · rename_i hlt
      injection h with h1
      injection h1 with ht hrest
      injection hrest with hos hoe
      subst ht; subst hos; subst hoe
      exact ⟨rfl, rfl, hlt⟩
    · exact ih h

theorem scanRules_first {src : Nat × Nat} {rules : List Range} {t : Range}
    {os oe : Nat} (h : scanRules src rules = some (t, os, oe)) :
    ∃ l1 l2, rules = l1 ++ t :: l2 ∧ overlapsRange src t ∧
      ∀ r ∈ l1, ¬ overlapsRange src r := by
  induction rules with
  | nil => simp [scanRules] at h
  | cons r rs ih =>
    simp only [scanRules] at h
    split at h
    · rename_i hlt
      injection h with h1
      injection h1 with ht hrest
      subst ht
      exact ⟨[], rs, rfl, hlt, by simp⟩
    · rename_i hnlt
      obtain ⟨l1, l2, heq, hov, hnone⟩ := ih h
      refine ⟨r :: l1, l2, by rw [heq]; rfl, hov, ?_⟩
      intro x hx
      rcases List.mem_cons.mp hx with h1 | h2
      · subst h1; exact hnlt
      · exact hnone x h2

theorem two_pow_add_le (a b : Nat) (ha : 1 ≤ a) (hb : 1 ≤ b) :
    2 ^ a + 2 ^ b ≤ 2 ^ (a + b) := by
  have h2a : 2 ≤ 2 ^ a := by
    calc 2 = 2 ^ 1 := by norm_num
    _ ≤ 2 ^ a := Nat.pow_le_pow_right (by norm_num) ha
  have h2b : 2 ≤ 2 ^ b := by
    calc 2 = 2 ^ 1 := by norm_num
    _ ≤ 2 ^ b := Nat.pow_le_pow_right (by norm_num) hb
  rw [pow_add]
  nlinarith

/-- The worklist measure strictly drops at an overlap step: each leftover is
strictly shorter than the popped interval. -/
theorem step_decrease (src : Nat × Nat) (rest : List (Nat × Nat)) (t : Range)
    (os oe : Nat) (hos : os = max src.1 t.source_start)
    (hoe : oe = min (src.1 + src.2) (t.source_start + t.range_len))
    (hlt : os < oe) :
    wMeasure
      (if oe < src.1 + src.2 then
        (oe, src.1 + src.2 - oe) ::
          (if src.1 < os then (src.1, os - src.1) :: rest else rest)
      else
        (if src.1 < os then (src.1, os - src.1) :: rest else rest)) <
      wMeasure (src :: rest) := by
  have h1 : src.1 ≤ os := by rw [hos]; exact Nat.le_max_left _ _
  have h2 : oe ≤ src.1 + src.2 := by rw [hoe]; exact Nat.min_le_left _ _
  have hpos : 0 < 2 ^ src.2 := Nat.pos_pow_of_pos _ (by norm_num)
  by_cases hafter : oe < src.1 + src.2 <;> by_cases hbefore : src.1 < os
  · rw [if_pos hafter, if_pos hbefore]
    simp only [wMeasure_pair_cons, wMeasure_cons]
    have key : 2 ^ (src.1 + src.2 - oe) + 2 ^ (os - src.1) < 2 ^ src.2 := by
      have hs : (src.1 + src.2 - oe) + (os - src.1) < src.2 := by omega
      calc 2 ^ (src.1 + src.2 - oe) + 2 ^ (os - src.1) ≤
          2 ^ ((src.1 + src.2 - oe) + (os - src.1)) :=
            two_pow_add_le _ _ (by omega) (by omega)
      _ < 2 ^ src.2 := Nat.pow_lt_pow_right (by norm_num) hs
    omega
  · rw [if_pos hafter, if_neg hbefore]
    simp only [wMeasure_pair_cons, wMeasure_cons]
    have key : 2 ^ (src.1 + src.2 - oe) < 2 ^ src.2 :=
      Nat.pow_lt_pow_right (by norm_num) (by omega)
    omega
  · rw [if_neg hafter, if_pos hbefore]
    simp only [wMeasure_pair_cons, wMeasure_cons]
    have key : 2 ^ (os - src.1) < 2 ^ src.2 :=
      Nat.pow_lt_pow_right (by norm_num) (by omega)
    omega
  · rw [if_neg hafter, if_neg hbefore]
    simp only [wMeasure_pair_cons, wMeasure_cons]
    omega

/-- The while-let worklist loop of Almanac::map_ranges.  The first list is
the pending worklist (head = back of the Rust Vec init_ranges, the next
interval to be popped); the second is final_ranges.  On a genuine overlap
the translated overlap is emitted, the leftover before overlap_start is
pushed first and the leftover after overlap_end second (so the latter is
popped first, as in the source); with no overlap the interval is emitted
unchanged. -/
def mapRangesLoop (m : AlMap) :
    List (Nat × Nat) → List (Nat × Nat) → List (Nat × Nat)
  | [], final_ranges => final_ranges
  | src :: rest, final_ranges =>
    match hscan : scanRules src m.ranges with
    | none => mapRangesLoop m rest (final_ranges ++ [src])
    | some (t, os, oe) =>
      mapRangesLoop m
        (if oe < src.1 + src.2 then
          (oe, src.1 + src.2 - oe) ::
            (if src.1 < os then (src.1, os - src.1) :: rest else rest)
        else
          (if src.1 < os then (src.1, os - src.1) :: rest else rest))
        (final_ranges ++ [(os - t.source_start + t.dest_start, oe - os)])
termination_by w _ => wMeasure w
decreasing_by
  · have hpos : 0 < 2 ^ src.2 := Nat.pos_pow_of_pos _ (by norm_num)
    simp only [wMeasure_cons]
    omega
  · obtain ⟨hos, hoe, hlt⟩ := scanRules_some_spec hscan
    exact step_decrease src rest t os oe hos hoe hlt

/-- Almanac::map_ranges: run the worklist loop with the given initial ranges
as the starting worklist (reversed, because the Rust Vec pops from the back)
and an empty final_ranges. -/
def Almanac.map_ranges (init_ranges : List (Nat × Nat)) (map : AlMap) :
    List (Nat × Nat) :=
  mapRangesLoop map init_ranges.reverse []

theorem mapRangesLoop_nil (m : AlMap) (f : List (Nat × Nat)) :
    mapRangesLoop m [] f = f := by
  rw [mapRangesLoop]

theorem mapRangesLoop_cons_none (m : AlMap) (src : Nat × Nat)
    (rest f : List (Nat × Nat)) (h : scanRules src m.ranges = none) :
    mapRangesLoop m (src :: rest) f = mapRangesLoop m rest (f ++ [src]) := by
  rw [mapRangesLoop]
  split
  · rfl
  · rename_i t os oe heq
    rw [h] at heq
    cases heq

theorem mapRangesLoop_cons_some (m : AlMap) (src : Nat × Nat)
    (rest f : List (Nat × Nat)) (t : Range) (os oe : Nat)
    (h : scanRules src m.ranges = some (t, os, oe)) :
    mapRangesLoop m (src :: rest) f =
      mapRangesLoop m
        (if oe < src.1 + src.2 then
          (oe, src.1 + src.2 - oe) ::
            (if src.1 < os then (src.1, os - src.1) :: rest else rest)
        else
          (if src.1 < os then (src.1, os - src.1) :: rest else rest))
        (f ++ [(os - t.source_start + t.dest_start, oe - os)]) := by
  rw [mapRangesLoop]
  split
  · rename_i heq
    rw [h] at heq
    cases heq
  · rename_i t2 os2 oe2 heq
    rw [h] at heq
    injection heq with h1
    injection h1 with ht hrest
    injection hrest with hos hoe
    subst ht; subst hos; subst hoe
    rfl

/-- Fuel-indexed small-step interpreter for the worklist loop: one unit of
fuel is spent for each interval popped from the worklist; none signals fuel
exhaustion.  The step taken for a popped interval is literally the one of
mapRangesLoop. -/
def mapRangesFuel (m : AlMap) :
    Nat → List (Nat × Nat) → List (Nat × Nat) → Option (List (Nat × Nat))
  | _, [], final_ranges => some final_ranges
  | 0, _ :: _, _ => none
  | fuel + 1, src :: rest, final_ranges =>
    match scanRules src m.ranges with
    | none => mapRangesFuel m fuel rest (final_ranges ++ [src])
    | some (t, os, oe) =>
      mapRangesFuel m fuel
        (if oe < src.1 + src.2 then
          (oe, src.1 + src.2 - oe) ::
            (if src.1 < os then (src.1, os - src.1) :: rest else rest)
        else
          (if src.1 < os then (src.1, os - src.1) :: rest else rest))
        (final_ranges ++ [(os - t.source_start + t.dest_start, oe - os)])

theorem mapRangesFuel_sound (m : AlMap) :
    ∀ (fuel : Nat) (w f r : List (Nat × Nat)),
      mapRangesFuel m fuel w f = some r → mapRangesLoop m w f = r := by
  intro fuel
  induction fuel with
  | zero =>
    intro w f r h
    match w with
    | [] =>
      simp only [mapRangesFuel, Option.some.injEq] at h
      rw [mapRangesLoop_nil]
      exact h
    | src :: rest => simp [mapRangesFuel] at h
  | succ fuel ih =>
    intro w f r h
    match w with
    | [] =>
      simp only [mapRangesFuel, Option.some.injEq] at h
      rw [mapRangesLoop_nil]
      exact h
    | src :: rest =>
      rw [mapRangesFuel] at h
      split at h
      · rename_i heq
        rw [mapRangesLoop_cons_none m src rest f heq]
        exact ih rest (f ++ [src]) r h
      · rename_i t os oe heq
        rw [mapRangesLoop_cons_some m src rest f t os oe heq]
        exact ih _ _ r h

theorem mapRangesFuel_complete (m : AlMap) :
    ∀ (fuel : Nat) (w f : List (Nat × Nat)), wMeasure w ≤ fuel →
      mapRangesFuel m fuel w f = some (mapRangesLoop m w f) := by
  intro fuel
  induction fuel with
  | zero =>
    intro w f hw
    match w with
    | [] => rw [mapRangesLoop_nil]; rfl
    | src :: rest =>
      exfalso
      have hpos : 0 < 2 ^ src.2 := Nat.pos_pow_of_pos _ (by norm_num)
      rw [wMeasure_cons] at hw
      omega
  | succ fuel ih =>
    intro w f hw
    match w with
    | [] => rw [mapRangesLoop_nil]; rfl
    | src :: rest =>
      cases hscan : scanRules src m.ranges with
      | none =>
        rw [mapRangesLoop_cons_none m src rest f hscan, mapRangesFuel, hscan]
        apply ih
        have hpos : 0 < 2 ^ src.2 := Nat.pos_pow_of_pos _ (by norm_num)
        rw [wMeasure_cons] at hw
        omega
      | some x =>
        obtain ⟨t, os, oe⟩ := x
        obtain ⟨hos, hoe, hlt⟩ := scanRules_some_spec hscan
        rw [mapRangesLoop_cons_some m src rest f t os oe hscan, mapRangesFuel,
          hscan]
        apply ih
        have hdec := step_decrease src rest t os oe hos hoe hlt
        omega

theorem map_ranges_eq_of_fuel (m : AlMap) (k : Nat)
    (init r : List (Nat × Nat))
    (h : mapRangesFuel m k init.reverse [] = some r) :
    Almanac.map_ranges init m = r := by
  unfold Almanac.map_ranges
  exact mapRangesFuel_sound m k init.reverse [] r h

/-- The chunks(2) pairing of Almanac::part2: split the seed list into
(start, length) pairs.  Rust's chunks(2) leaves a final one-element chunk
when the list has odd length and the body then indexes chunk[1] out of
bounds, a panic; that abort is modeled by none. -/
def chunkPairs : List Nat → Option (List (Nat × Nat))
  | [] => some []
  | [_] => none
  | a :: b :: rest => (chunkPairs rest).map (fun ps => (a, b) :: ps)

/-- The min_by_key(|x| x.0) call of Almanac::part2: first element with the
smallest first component, none on the empty list. -/
def minByFst : List (Nat × Nat) → Option (Nat × Nat)
  | [] => none
  | x :: xs => some (xs.foldl (fun acc y => if y.1 < acc.1 then y else acc) x)

/-- The seven successive Almanac::map_ranges calls of Almanac::part2, in
source order. -/
def Almanac.runChain (a : Almanac) (init : List (Nat × Nat)) :
    List (Nat × Nat) :=
  let r1 := Almanac.map_ranges init a.seed_soil
  let r2 := Almanac.map_ranges r1 a.soil_fert
  let r3 := Almanac.map_ranges r2 a.fert_water
  let r4 := Almanac.map_ranges r3 a.water_light
  let r5 := Almanac.map_ranges r4 a.light_temp
  let r6 := Almanac.map_ranges r5 a.temp_humid
  Almanac.map_ranges r6 a.humid_loc

/-- Almanac::part2: pair the seeds into ranges, push them through the seven
layers, and take the minimum by start value.  The outer Option models the
Rust panic on an odd-length seed list (none = abort); the inner Option is the
source's return value (None when the final range list is empty). -/
def Almanac.part2 (a : Almanac) : Option (Option (Nat × Nat)) :=
  match chunkPairs a.init_seeds with
  | none => none
  | some init_ranges => some (minByFst (a.runChain init_ranges))

theorem scanRules_cons_pos (a b : Nat) (t : Range) (ts : List Range)
    (h : max a t.source_start < min (a + b) (t.source_start + t.range_len)) :
    scanRules (a, b) (t :: ts) =
      some (t, max a t.source_start,
        min (a + b) (t.source_start + t.range_len)) := by
  simp only [scanRules]
  split
  · rfl
  · rename_i hn
    exact absurd h hn

theorem scanRules_cons_neg (a b : Nat) (t : Range) (ts : List Range)
    (h : ¬ max a t.source_start < min (a + b) (t.source_start + t.range_len)) :
    scanRules (a, b) (t :: ts) = scanRules (a, b) ts := by
  simp only [scanRules]
  split
  · rename_i hp
    exact absurd hp h
  · rfl

theorem findSome?_cons_eq {α β : Type} (f : α → Option β) (a : α)
    (l : List α) :
    (a :: l).findSome? f =
      match f a with
      | some b => some b
      | none => l.findSome? f := rfl

theorem findSome?_eq_none_of {α β : Type} (f : α → Option β) (l : List α)
    (h : ∀ x ∈ l, f x = none) : l.findSome? f = none := by
  induction l with
  | nil => rfl
  | cons a as ih =>
    rw [findSome?_cons_eq, h a (by simp)]
    exact ih (fun x hx => h x (List.mem_cons_of_mem a hx))

theorem mapRangesLoop_cons_some_pair (m : AlMap) (a b : Nat)
    (rest f : List (Nat × Nat)) (t : Range) (os oe : Nat)
    (h : scanRules (a, b) m.ranges = some (t, os, oe)) :
    mapRangesLoop m ((a, b) :: rest) f =
      mapRangesLoop m
        (if oe < a + b then
          (oe, a + b - oe) :: (if a < os then (a, os - a) :: rest else rest)
        else
          (if a < os then (a, os - a) :: rest else rest))
        (f ++ [(os - t.source_start + t.dest_start, oe - os)]) :=
  mapRangesLoop_cons_some m (a, b) rest f t os oe h

/-- For a length-one interval (v, 1), the inner rule scan agrees with the
scalar rule scan of AlMap::convert: both fail on the same rule lists, and
when they hit, the hit is the same rule, the overlap is [v, v + 1), and the
scalar destination is the translated start. -/
theorem scanRules_length_one (rules : List Range) (v : Nat) :
    (scanRules (v, 1) rules = none ∧
      rules.findSome? (fun r => r.in_range v) = none) ∨
    (∃ t, scanRules (v, 1) rules = some (t, v, v + 1) ∧ t.source_start ≤ v ∧
      rules.findSome? (fun r => r.in_range v) =
        some (t.dest_start + (v - t.source_start))) := by
  induction rules with
  | nil => exact Or.inl ⟨rfl, rfl⟩
  | cons r rs ih =>
    by_cases hr : r.source_start ≤ v ∧ v < r.source_start + r.range_len
    · right
      refine ⟨r, ?_, hr.1, ?_⟩
      · rw [scanRules_cons_pos v 1 r rs (by omega)]
        have hmax : max v r.source_start = v := by omega
        have hmin : min (v + 1) (r.source_start + r.range_len) = v + 1 := by
          omega
        rw [hmax, hmin]
      · rw [findSome?_cons_eq]
        have hin : r.in_range v = some (r.dest_start + (v - r.source_start)) := by
          simp only [Range.in_range]
          split
          · rfl
          · rename_i hn
            exact absurd hr hn
        rw [hin]
    · have hnone : r.in_range v = none := by
        simp only [Range.in_range]
        split
        · rename_i hp
          exact absurd hp hr
        · rfl
      have hscan := scanRules_cons_neg v 1 r rs
        (by intro hlt; exact hr ⟨by omega, by omega⟩)
      rcases ih with ⟨ih1, ih2⟩ | ⟨t, ih1, ih2, ih3⟩
      · left
        constructor
        · rw [hscan]; exact ih1
        · rw [findSome?_cons_eq, hnone]; exact ih2
      · right
        refine ⟨t, ?_, ih2, ?_⟩
        · rw [hscan]; exact ih1
        · rw [findSome?_cons_eq, hnone]; exact ih3

theorem map_ranges_nil (m : AlMap) : Almanac.map_ranges [] m = [] := by
  unfold Almanac.map_ranges
  rw [show ([] : List (Nat × Nat)).reverse = [] from rfl, mapRangesLoop_nil]

/-- A stage applied to a single length-one interval resolves it in one pop,
with no leftovers, to the singleton interval starting at the scalar
conversion of its start. -/
theorem map_ranges_single (m : AlMap) (v : Nat) :
    Almanac.map_ranges [(v, 1)] m = [(m.convert v, 1)] := by
  unfold Almanac.map_ranges
  rw [show ([(v, 1)] : List (Nat × Nat)).reverse = [(v, 1)] from rfl]
  rcases scanRules_length_one m.ranges v with ⟨hs, hf⟩ | ⟨t, hs, hss, hf⟩
  · rw [mapRangesLoop_cons_none m (v, 1) [] [] hs, mapRangesLoop_nil]
    simp only [AlMap.convert, hf, Option.getD_none, List.nil_append]
  · rw [mapRangesLoop_cons_some_pair m v 1 [] [] t v (v + 1) hs,
      if_neg (by omega : ¬ v + 1 < v + 1), if_neg (by omega : ¬ v < v),
      mapRangesLoop_nil]
    simp only [AlMap.convert, hf, Option.getD_some, List.nil_append]
    have h1 : v - t.source_start + t.dest_start =
        t.dest_start + (v - t.source_start) := by omega
    have h2 : v + 1 - v = 1 := by omega
    rw [h1, h2]

/-- Total interval length is preserved by every fuel run of the worklist
loop that completes: each pop either emits the popped interval unchanged or
splits its length exactly among the emitted overlap and the leftovers. -/
theorem mapRangesFuel_snd_sum (m : AlMap) :
    ∀ (fuel : Nat) (w f r : List (Nat × Nat)),
      mapRangesFuel m fuel w f = some r →
      (r.map Prod.snd).sum = (w.map Prod.snd).sum + (f.map Prod.snd).sum := by
  intro fuel
  induction fuel with
  | zero =>
    intro w f r h
    match w with
    | [] =>
      simp only [mapRangesFuel, Option.some.injEq] at h
      subst h
      simp
    | _ :: _ => simp [mapRangesFuel] at h
  | succ fuel ih =>
    intro w f r h
    match w with
    | [] =>
      simp only [mapRangesFuel, Option.some.injEq] at h
      subst h
      simp
    | src :: rest =>
      rw [mapRangesFuel] at h
      split at h
      · have hsum := ih _ _ _ h
        simp only [List.map_cons, List.sum_cons, List.map_append,
          List.sum_append, List.map_nil, List.sum_nil] at hsum ⊢
        omega
      · rename_i t os oe heq
        obtain ⟨hos, hoe, hlt⟩ := scanRules_some_spec heq
        have hsum := ih _ _ _ h
        have h1 : src.1 ≤ os := by rw [hos]; exact Nat.le_max_left _ _
        have h2 : oe ≤ src.1 + src.2 := by rw [hoe]; exact Nat.min_le_left _ _
        by_cases hafter : oe < src.1 + src.2 <;>
          by_cases hbefore : src.1 < os
        · rw [if_pos hafter, if_pos hbefore] at hsum
          simp only [List.map_cons, List.sum_cons, List.map_append,
            List.sum_append, List.map_nil, List.sum_nil] at hsum ⊢
          omega
        · rw [if_pos hafter, if_neg hbefore] at hsum
          simp only [List.map_cons, List.sum_cons, List.map_append,
            List.sum_append, List.map_nil, List.sum_nil] at hsum ⊢
          omega
        · rw [if_neg hafter, if_pos hbefore] at hsum
          simp only [List.map_cons, List.sum_cons, List.map_append,
            List.sum_append, List.map_nil, List.sum_nil] at hsum ⊢
          omega
        · rw [if_neg hafter, if_neg hbefore] at hsum
          simp only [List.map_cons, List.sum_cons, List.map_append,
            List.sum_append, List.map_nil, List.sum_nil] at hsum ⊢
          omega

/-- C1: for every almanac and every value v, converting v one scalar at a
time through the seven stages (Almanac::get_conversion) gives the same
integer as running the interval form of part2 on the single interval
[v, v + 1) and taking the smallest start of the final intervals. -/
theorem single_value_interval_agreement (a : Almanac) (v : Nat) :
    (minByFst (a.runChain [(v, 1)])).map Prod.fst =
      some (a.get_conversion v) := by
  simp only [Almanac.runChain, Almanac.get_conversion, map_ranges_single]
  simp [minByFst]

/-- Membership of a value in a half-open (start, length) interval: the
notion of coverage used by the spec's partition law. -/
def inInterval (p : Nat × Nat) (v : Nat) : Prop :=
  p.1 ≤ v ∧ v < p.1 + p.2

instance (p : Nat × Nat) (v : Nat) : Decidable (inInterval p v) := by
  unfold inInterval
  infer_instance

/-- A one-rule stage whose rule maps [0, 10) by offset +5. -/
def cexMap : AlMap := ⟨[⟨0, 5, 10⟩]⟩

/-- C2, counterexample to the claim as stated: applying cexMap to the
interval [0, 20) produces the output intervals [5, 15) and [10, 20), which
overlap (both contain 10), refuting the asserted absence of overlaps among
the output intervals. -/
theorem coverage_no_overlap_counterexample :
    Almanac.map_ranges [(0, 20)] cexMap = [(5, 10), (10, 10)] ∧
    inInterval (5, 10) 10 ∧ inInterval (10, 10) 10 :=
  ⟨map_ranges_eq_of_fuel cexMap 99 [(0, 20)] [(5, 10), (10, 10)] (by decide),
   by decide, by decide⟩

/-- C2, amended: for every stage and every input interval of positive
length, the output intervals of Almanac::map_ranges cover exactly S.length
values in total (the sum of the output lengths equals the input length);
the outputs need not be gap-free or disjoint in destination space. -/
theorem coverage_total_length (m : AlMap) (S : Nat × Nat) (hS : 0 < S.2) :
    ((Almanac.map_ranges [S] m).map Prod.snd).sum = S.2 := by
  have hc := mapRangesFuel_complete m (wMeasure [S]) [S] [] (Nat.le_refl _)
  have hsum := mapRangesFuel_snd_sum m (wMeasure [S]) [S] []
    (mapRangesLoop m [S] []) hc
  unfold Almanac.map_ranges
  rw [show ([S] : List (Nat × Nat)).reverse = [S] from rfl]
  simp only [List.map_cons, List.map_nil, List.sum_cons, List.sum_nil]
    at hsum
  omega

theorem coverage_total_length_witness :
    0 < ((0, 20) : Nat × Nat).2 ∧
    ((Almanac.map_ranges [(0, 20)] cexMap).map Prod.snd).sum = 20 :=
  ⟨by decide, coverage_total_length cexMap (0, 20) (by decide)⟩

/-- C3: when an interval is popped from the worklist, the first rule in
stored order whose source domain genuinely overlaps it governs: the scan
result is that rule (every earlier rule fails the overlap test), its
overlap bounds are the max/min of the source code, and the loop emits
exactly one translated interval for this pop, pushing the leftover before
overlapStart and the leftover after overlapEnd back onto the worklist to be
re-evaluated against all rules. -/
theorem first_match_wins (m : AlMap) (src : Nat × Nat)
    (rest final_ranges : List (Nat × Nat)) (t : Range) (os oe : Nat)
    (h : scanRules src m.ranges = some (t, os, oe)) :
    (∃ l1 l2, m.ranges = l1 ++ t :: l2 ∧ overlapsRange src t ∧
      ∀ r ∈ l1, ¬ overlapsRange src r) ∧
    os = max src.1 t.source_start ∧
    oe = min (src.1 + src.2) (t.source_start + t.range_len) ∧
    mapRangesLoop m (src :: rest) final_ranges =
      mapRangesLoop m
        (if oe < src.1 + src.2 then
          (oe, src.1 + src.2 - oe) ::
            (if src.1 < os then (src.1, os - src.1) :: rest else rest)
        else
          (if src.1 < os then (src.1, os - src.1) :: rest else rest))
        (final_ranges ++ [(os - t.source_start + t.dest_start, oe - os)]) := by
  obtain ⟨hos, hoe, hlt⟩ := scanRules_some_spec h
  exact ⟨scanRules_first h, hos, hoe,
    mapRangesLoop_cons_some m src rest final_ranges t os oe h⟩

/-- A two-rule stage whose rule domains [0, 10) and [5, 15) both overlap
the interval [5, 8). -/
def fmMap : AlMap := ⟨[⟨0, 100, 10⟩, ⟨5, 200, 10⟩]⟩

theorem first_match_wins_witness :
    ∃ l1 l2, fmMap.ranges = l1 ++ (Range.mk 0 100 10) :: l2 ∧
      overlapsRange (5, 3) (Range.mk 0 100 10) ∧
      ∀ r ∈ l1, ¬ overlapsRange (5, 3) r :=
  (first_match_wins fmMap (5, 3) [] [] (Range.mk 0 100 10) 5 8 (by decide)).1

/-- C4: a value inside a rule's source domain is translated by the rule's
constant offset: in_range returns some (dest_start + (v - source_start)),
which over the integers is v + (destStart - sourceStart); a one-rule stage
converts v to that value; and in_range returns none for every value outside
the source domain. -/
theorem rule_conversion_formula (r : Range) (v : Nat)
    (h : r.source_start ≤ v ∧ v < r.source_start + r.range_len) :
    r.in_range v = some (r.dest_start + (v - r.source_start)) ∧
    ((r.dest_start + (v - r.source_start) : Nat) : Int) =
      (v : Int) + ((r.dest_start : Int) - (r.source_start : Int)) ∧
    AlMap.convert ⟨[r]⟩ v = r.dest_start + (v - r.source_start) ∧
    ∀ w : Nat, ¬ (r.source_start ≤ w ∧ w < r.source_start + r.range_len) →
      r.in_range w = none := by
  have hin : r.in_range v = some (r.dest_start + (v - r.source_start)) := by
    simp only [Range.in_range]
    split
    · rfl
    · rename_i hn
      exact absurd h hn
  refine ⟨hin, by omega, ?_, ?_⟩
  · simp only [AlMap.convert, findSome?_cons_eq, hin]
    rfl
  · intro w hw
    simp only [Range.in_range]
    split
    · rename_i hp
      exact absurd hp hw
    · rfl

theorem rule_conversion_formula_witness :
    Range.in_range (Range.mk 50 52 48) 79 = some 81 :=
  (rule_conversion_formula (Range.mk 50 52 48) 79 (by decide)).1

/-- C5: a value contained in no rule of a stage converts to itself, and an
interval overlapping no rule's source domain passes through the stage's
interval application unchanged as the single output. -/
theorem identity_passthrough (m : AlMap) (v : Nat) (S : Nat × Nat)
    (hv : ∀ r ∈ m.ranges, r.in_range v = none)
    (hS : ∀ r ∈ m.ranges, ¬ overlapsRange S r) :
    m.convert v = v ∧ Almanac.map_ranges [S] m = [S] := by
  constructor
  · simp only [AlMap.convert]
    rw [findSome?_eq_none_of _ _ hv]
    rfl
  · have hscan : scanRules S m.ranges = none :=
      (scanRules_eq_none_iff S m.ranges).mpr hS
    unfold Almanac.map_ranges
    rw [show ([S] : List (Nat × Nat)).reverse = [S] from rfl,
      mapRangesLoop_cons_none m S [] [] hscan, mapRangesLoop_nil]
    rfl

theorem identity_passthrough_witness :
    AlMap.convert ⟨[Range.mk 50 52 48]⟩ 13 = 13 ∧
    Almanac.map_ranges [(0, 5)] ⟨[Range.mk 50 52 48]⟩ = [(0, 5)] :=
  identity_passthrough ⟨[Range.mk 50 52 48]⟩ 13 (0, 5) (by decide) (by decide)

/-- C7: the worklist loop of Almanac::map_ranges terminates: the
step-for-step fuel interpreter, given any fuel at least the (computable)
measure of the worklist, never exhausts its fuel and returns the total
function's value, because every interval pushed back onto the worklist is
strictly shorter than the interval that was popped. -/
theorem map_ranges_terminates (m : AlMap) (fuel : Nat)
    (w f : List (Nat × Nat)) (h : wMeasure w ≤ fuel) :
    mapRangesFuel m fuel w f = some (mapRangesLoop m w f) :=
  mapRangesFuel_complete m fuel w f h

theorem map_ranges_terminates_witness :
    mapRangesFuel ⟨[Range.mk 0 5 10]⟩ 8 [(0, 3)] [] =
      some (mapRangesLoop ⟨[Range.mk 0 5 10]⟩ [(0, 3)] []) :=
  map_ranges_terminates ⟨[Range.mk 0 5 10]⟩ 8 [(0, 3)] [] (by decide)

/-- The seed-to-soil map of the canonical test input (lines "50 98 2",
"52 50 48"; a parsed rule stores source_start, dest_start, range_len). -/
def seedSoilM : AlMap := ⟨[⟨98, 50, 2⟩, ⟨50, 52, 48⟩]⟩

/-- The soil-to-fertilizer map of the canonical test input. -/
def soilFertM : AlMap := ⟨[⟨15, 0, 37⟩, ⟨52, 37, 2⟩, ⟨0, 39, 15⟩]⟩

/-- The fertilizer-to-water map of the canonical test input. -/
def fertWaterM : AlMap := ⟨[⟨53, 49, 8⟩, ⟨11, 0, 42⟩, ⟨0, 42, 7⟩, ⟨7, 57, 4⟩]⟩

/-- The water-to-light map of the canonical test input. -/
def waterLightM : AlMap := ⟨[⟨18, 88, 7⟩, ⟨25, 18, 70⟩]⟩

/-- The light-to-temperature map of the canonical test input. -/
def lightTempM : AlMap := ⟨[⟨77, 45, 23⟩, ⟨45, 81, 19⟩, ⟨64, 68, 13⟩]⟩

/-- The temperature-to-humidity map of the canonical test input. -/
def tempHumidM : AlMap := ⟨[⟨69, 0, 1⟩, ⟨0, 1, 69⟩]⟩

/-- The humidity-to-location map of the canonical test input. -/
def humidLocM : AlMap := ⟨[⟨56, 60, 37⟩, ⟨93, 56, 4⟩]⟩

/-- The full almanac of the canonical test input (tests::test_parse_input):
seeds 79 14 55 13 and the seven maps above. -/
def testAlmanac : Almanac :=
  ⟨[79, 14, 55, 13], seedSoilM, soilFertM, fertWaterM, waterLightM,
    lightTempM, tempHumidM, humidLocM⟩

/-- C6: on the canonical 7-stage fixture, running part2 (seed ranges
(79, 14) and (55, 13) pushed through all seven stages, then the smallest
start among the final intervals) yields 46. -/
theorem fixture_min_location :
    (testAlmanac.part2).map (Option.map Prod.fst) = some (some 46) := by
  have h1 : Almanac.map_ranges [(79, 14), (55, 13)] testAlmanac.seed_soil =
      [(57, 13), (81, 14)] :=
    map_ranges_eq_of_fuel _ 99 _ _ (by decide)
  have h2 : Almanac.map_ranges [(57, 13), (81, 14)] testAlmanac.soil_fert =
      [(81, 14), (57, 13)] :=
    map_ranges_eq_of_fuel _ 99 _ _ (by decide)
  have h3 : Almanac.map_ranges [(81, 14), (57, 13)] testAlmanac.fert_water =
      [(53, 4), (61, 9), (81, 14)] :=
    map_ranges_eq_of_fuel _ 99 _ _ (by decide)
  have h4 : Almanac.map_ranges [(53, 4), (61, 9), (81, 14)]
      testAlmanac.water_light = [(74, 14), (54, 9), (46, 4)] :=
    map_ranges_eq_of_fuel _ 99 _ _ (by decide)
  have h5 : Almanac.map_ranges [(74, 14), (54, 9), (46, 4)]
      testAlmanac.light_temp = [(82, 4), (90, 9), (45, 11), (78, 3)] :=
    map_ranges_eq_of_fuel _ 99 _ _ (by decide)
  have h6 : Almanac.map_ranges [(82, 4), (90, 9), (45, 11), (78, 3)]
      testAlmanac.temp_humid = [(78, 3), (46, 11), (90, 9), (82, 4)] :=
    map_ranges_eq_of_fuel _ 99 _ _ (by decide)
  have h7 : Almanac.map_ranges [(78, 3), (46, 11), (90, 9), (82, 4)]
      testAlmanac.humid_loc =
      [(86, 4), (94, 3), (56, 4), (97, 2), (60, 1), (46, 10), (82, 3)] :=
    map_ranges_eq_of_fuel _ 99 _ _ (by decide)
  have hrun : testAlmanac.runChain [(79, 14), (55, 13)] =
      [(86, 4), (94, 3), (56, 4), (97, 2), (60, 1), (46, 10), (82, 3)] := by
    simp only [Almanac.runChain]
    rw [h1, h2, h3, h4, h5, h6, h7]
  have hck : chunkPairs testAlmanac.init_seeds =
      some [(79, 14), (55, 13)] := by decide
  have hpart : testAlmanac.part2 =
      some (minByFst (testAlmanac.runChain [(79, 14), (55, 13)])) := by
    rw [Almanac.part2, hck]
  rw [hpart, hrun]
  decide

/-- C8: with an empty seed list, part2 does not produce a number: the seven
stages run on an empty interval list, the final list is empty, and
min_by_key returns None, which main reports as an error message. -/
theorem empty_seeds_part2_none (a : Almanac) (h : a.init_seeds = []) :
    a.part2 = some none := by
  have hck : chunkPairs a.init_seeds = some [] := by rw [h]; rfl
  have hrun : a.runChain [] = [] := by
    simp only [Almanac.runChain, map_ranges_nil]
  have hpart : a.part2 = some (minByFst (a.runChain [])) := by
    rw [Almanac.part2, hck]
  rw [hpart, hrun]
  rfl

/-- An almanac with no seeds and seven empty maps. -/
def emptyAlmanac : Almanac :=
  ⟨[], ⟨[]⟩, ⟨[]⟩, ⟨[]⟩, ⟨[]⟩, ⟨[]⟩, ⟨[]⟩, ⟨[]⟩⟩

theorem empty_seeds_part2_none_witness : emptyAlmanac.part2 = some none :=
  empty_seeds_part2_none emptyAlmanac rfl

theorem chunkPairs_even :
    ∀ l : List Nat, l.length % 2 = 0 → ∃ ps, chunkPairs l = some ps
  | [], _ => ⟨[], rfl⟩
  | [_], h => by simp at h
  | a :: b :: rest, h => by
    obtain ⟨ps, hps⟩ := chunkPairs_even rest
      (by simp only [List.length_cons] at h; omega)
    exact ⟨(a, b) :: ps, by simp [chunkPairs, hps]⟩

theorem chunkPairs_odd :
    ∀ l : List Nat, l.length % 2 = 1 → chunkPairs l = none
  | [], h => by simp at h
  | [_], _ => rfl
  | a :: b :: rest, h => by
    have hrest := chunkPairs_odd rest
      (by simp only [List.length_cons] at h; omega)
    simp [chunkPairs, hrest]

/-- C10: part2 pairs the seed list into chunks of two and indexes both
elements of every chunk; with an even seed count the computation returns a
result, while an odd seed count makes the final one-element chunk's
chunk[1] access abort (a panic, modeled as the outer none). -/
theorem even_seed_count_precondition (a : Almanac) :
    (a.init_seeds.length % 2 = 0 → ∃ r, a.part2 = some r) ∧
    (a.init_seeds.length % 2 = 1 → a.part2 = none) := by
  constructor
  · intro h
    obtain ⟨ps, hps⟩ := chunkPairs_even a.init_seeds h
    exact ⟨minByFst (a.runChain ps), by rw [Almanac.part2, hps]⟩
  · intro h
    rw [Almanac.part2, chunkPairs_odd a.init_seeds h]

/-- An almanac with an odd number of seeds. -/
def oddAlmanac : Almanac :=
  ⟨[79, 14, 55], ⟨[]⟩, ⟨[]⟩, ⟨[]⟩, ⟨[]⟩, ⟨[]⟩, ⟨[]⟩, ⟨[]⟩⟩

theorem even_seed_count_precondition_witness :
    (∃ r, testAlmanac.part2 = some r) ∧ oddAlmanac.part2 = none :=
  ⟨(even_seed_count_precondition testAlmanac).1 (by decide),
   (even_seed_count_precondition oddAlmanac).2 (by decide)⟩

/-- Splitting a character list at every occurrence of a separator, keeping
empty pieces (the behaviour of Rust's str::split on a char pattern). -/
def splitChars (sep : Char) : List Char → List (List Char)
  | [] => [[]]
  | c :: cs =>
    if c = sep then [] :: splitChars sep cs
    else
      match splitChars sep cs with
      | [] => [[c]]
      | t :: ts => (c :: t) :: ts

/-- Model of the split-on-space collect call of Range::parse: split the
line at every single space character, keeping empty tokens between
consecutive spaces and at the ends. -/
def splitSpace (s : String) : List String :=
  (splitChars ' ' s.data).map (fun cs => String.mk cs)

/-- Model of str::parse::<u64>: an optional leading plus sign followed by a
nonempty run of decimal digits, rejecting values of 2 ^ 64 or more. -/
def parseU64 (s : String) : Option Nat :=
  let t :=
    match s.data with
    | '+' :: rest => rest
    | cs => cs
  if t.isEmpty then none
  else if t.all (fun c => c.isDigit) then
    let v := t.foldl (fun acc c => acc * 10 + (c.toNat - 48)) 0
    if v < 2 ^ 64 then some v else none
  else none

/-- One nums.get(i).ok_or(InvalidRangeString)?.parse()? step of
Range::parse: a missing token gives InvalidRangeString, a failing integer
parse gives a ParseIntError. -/
def getNum (nums : List String) (i : Nat) : Except AlmanacError Nat :=
  match nums.get? i with
  | none => .error .invalidRangeString
  | some s =>
    match parseU64 s with
    | none => .error .parseIntError
    | some n => .ok n

/-- Range::parse: split the line on single spaces and read token 1 as
source_start, token 0 as dest_start and token 2 as range_len, in the
source's evaluation order, with the source's ?-propagation. -/
def Range.parse (input : String) : Except AlmanacError Range :=
  let nums := splitSpace input
  match getNum nums 1 with
  | .error e => .error e
  | .ok s =>
    match getNum nums 0 with
    | .error e => .error e
    | .ok d =>
      match getNum nums 2 with
      | .error e => .error e
      | .ok l => .ok ⟨s, d, l⟩

/-- The rule loop of AlMap::parse: parse every line, aborting at the first
failing line (the source's ?-propagation). -/
def parseRanges : List String → Except AlmanacError (List Range)
  | [] => .ok []
  | r :: rs =>
    match Range.parse r with
    | .error e => .error e
    | .ok rng =>
      match parseRanges rs with
      | .error e => .error e
      | .ok rest => .ok (rng :: rest)

/-- AlMap::parse. -/
def AlMap.parse (input : List String) : Except AlmanacError AlMap :=
  match parseRanges input with
  | .error e => .error e
  | .ok rs => .ok ⟨rs⟩

/-- Model of str::lines on newline-separated input (carriage returns are
not modeled): split on the newline character, without a trailing empty line
when the input ends in a newline. -/
def rustLines (s : String) : List String :=
  let ls := s.splitOn "\n"
  if ls.getLast? = some "" then ls.dropLast else ls

/-- Model of Iterator::position on a list: the index of the first element
satisfying the predicate. -/
def positionIdx (p : String → Bool) : List String → Option Nat
  | [] => none
  | x :: xs => if p x then some 0 else (positionIdx p xs).map (fun i => i + 1)

/-- Model of the slice expression lines[2..] of Almanac::parse: panics when
fewer than two elements are present. -/
def tailSlice2 {α : Type} : List α → Except AlmanacError (List α)
  | _ :: _ :: xs => .ok xs
  | _ => .error .panicked

/-- One block of the Almanac::parse loop: AlMap::parse applied to
map_data[1..], the block with its header line dropped; slicing [1..] on an
empty block is a panic. -/
def parseBlock (block : List String) : Except AlmanacError AlMap :=
  match block with
  | [] => .error .panicked
  | _ :: map_data => AlMap.parse map_data

/-- The while-let block loop of Almanac::parse: find the next blank line,
parse the block before it (dropping its header line, a panic on an empty
block) as an AlMap, continue after the blank line, and parse the final
block (no blank line left) the same way. -/
def parseMapsLoop (remaining_lines : List String) :
    Except AlmanacError (List AlMap) :=
  match hpos : positionIdx (fun x => x == "") remaining_lines with
  | some ind =>
    match parseBlock (remaining_lines.take ind) with
    | .error e => .error e
    | .ok m =>
      match parseMapsLoop (remaining_lines.drop (ind + 1)) with
      | .error e => .error e
      | .ok maps => .ok (m :: maps)
  | none =>
    match parseBlock remaining_lines with
    | .error e => .error e
    | .ok m => .ok [m]
termination_by remaining_lines.length
decreasing_by
  have hne : remaining_lines ≠ [] := by
    intro hnil
    rw [hnil] at hpos
    simp [positionIdx] at hpos
  have hlen : 0 < remaining_lines.length := List.length_pos.mpr hne
  simp only [List.length_drop]
  omega

/-- Almanac::parse: read the seed list from line 0 (keeping the tokens that
parse as integers), slice off the first two lines, run the block loop, and
take seven maps off the front (extra blocks are dropped, fewer is
InvalidInput). -/
def Almanac.parse (input : String) : Except AlmanacError Almanac :=
  let lines := rustLines input
  match lines.get? 0 with
  | none => .error .invalidInput
  | some init_line =>
    let init_seeds := (splitSpace init_line).filterMap parseU64
    match tailSlice2 lines with
    | .error e => .error e
    | .ok remaining_lines =>
      match parseMapsLoop remaining_lines with
      | .error e => .error e
      | .ok maps =>
        match maps with
        | m1 :: m2 :: m3 :: m4 :: m5 :: m6 :: m7 :: _ =>
          .ok ⟨init_seeds, m1, m2, m3, m4, m5, m6, m7⟩
        | _ => .error .invalidInput

/-- Failure of token i of a split rule line to parse as an integer. -/
def badTokenB (nums : List String) (i : Nat) : Bool :=
  match nums.get? i with
  | none => false
  | some s => (parseU64 s).isNone

/-- A rule line that cannot be parsed into three integers: fewer than three
space-separated tokens, or one of the three consumed tokens (indices 0, 1
and 2 of the split) fails integer parsing. -/
def malformedLine (line : String) : Prop :=
  (splitSpace line).length < 3 ∨
  badTokenB (splitSpace line) 0 = true ∨
  badTokenB (splitSpace line) 1 = true ∨
  badTokenB (splitSpace line) 2 = true

instance (line : String) : Decidable (malformedLine line) := by
  unfold malformedLine
  infer_instance

theorem getNum_error_cases (nums : List String) (i : Nat) (e : AlmanacError)
    (h : getNum nums i = .error e) :
    e = AlmanacError.invalidRangeString ∨ e = AlmanacError.parseIntError := by
  unfold getNum at h
  split at h
  · injection h with h1
    exact Or.inl h1.symm
  · split at h
    · injection h with h1
      exact Or.inr h1.symm
    · cases h

theorem getNum_ok_cases (nums : List String) (i : Nat) (n : Nat)
    (h : getNum nums i = .ok n) :
    ∃ s, nums.get? i = some s ∧ parseU64 s = some n := by
  unfold getNum at h
  split at h
  · cases h
  · rename_i s hs
    split at h
    · cases h
    · rename_i m hm
      injection h with h1
      exact ⟨s, hs, by rw [hm, h1]⟩

theorem range_parse_error_of_malformed (line : String)
    (h : malformedLine line) :
    ∃ e, Range.parse line = Except.error e ∧ e ≠ AlmanacError.panicked := by
  unfold Range.parse
  cases hg1 : getNum (splitSpace line) 1 with
  | error e =>
    refine ⟨e, ?_, ?_⟩
    · simp only [hg1]
    · rcases getNum_error_cases _ _ _ hg1 with h1 | h1 <;> simp [h1]
  | ok s1 =>
    cases hg0 : getNum (splitSpace line) 0 with
    | error e =>
      refine ⟨e, ?_, ?_⟩
      · simp only [hg1, hg0]
      · rcases getNum_error_cases _ _ _ hg0 with h1 | h1 <;> simp [h1]
    | ok d =>
      cases hg2 : getNum (splitSpace line) 2 with
      | error e =>
        refine ⟨e, ?_, ?_⟩
        · simp only [hg1, hg0, hg2]
        · rcases getNum_error_cases _ _ _ hg2 with h1 | h1 <;> simp [h1]
      | ok l =>
        exfalso
        obtain ⟨s0, hs0, hp0⟩ := getNum_ok_cases _ _ _ hg0
        obtain ⟨s1x, hs1, hp1⟩ := getNum_ok_cases _ _ _ hg1
        obtain ⟨s2, hs2, hp2⟩ := getNum_ok_cases _ _ _ hg2
        have hlen : 3 ≤ (splitSpace line).length := by
          rcases List.get?_eq_some.mp hs2 with ⟨hlt, _⟩
          omega
        rcases h with hl | hb | hb | hb
        · omega
        · unfold badTokenB at hb
          rw [hs0] at hb
          simp [hp0] at hb
        · unfold badTokenB at hb
          rw [hs1] at hb
          simp [hp1] at hb
        · unfold badTokenB at hb
          rw [hs2] at hb
          simp [hp2] at hb

theorem parseRanges_error_mem (lines : List String) (line : String)
    (hmem : line ∈ lines) (e : AlmanacError)
    (he : Range.parse line = .error e) :
    ∃ e2, parseRanges lines = Except.error e2 := by
  induction lines with
  | nil => cases hmem
  | cons l ls ih =>
    rcases List.mem_cons.mp hmem with h1 | h2
    · subst h1
      exact ⟨e, by simp only [parseRanges]; rw [he]⟩
    · cases hp : Range.parse l with
      | error e3 => exact ⟨e3, by simp only [parseRanges]; rw [hp]⟩
      | ok rng =>
        obtain ⟨e2, he2⟩ := ih h2
        exact ⟨e2, by simp only [parseRanges]; rw [hp, he2]⟩

theorem almap_parse_error_mem (pre post : List String) (line : String)
    (e : AlmanacError) (he : Range.parse line = .error e) :
    ∃ e2, AlMap.parse (pre ++ line :: post) = Except.error e2 := by
  obtain ⟨e2, he2⟩ := parseRanges_error_mem (pre ++ line :: post) line
    (by simp) e he
  exact ⟨e2, by unfold AlMap.parse; rw [he2]⟩

theorem positionIdx_eq_none (p : String → Bool) (l : List String)
    (h : ∀ x ∈ l, p x = false) : positionIdx p l = none := by
  induction l with
  | nil => rfl
  | cons a as ih =>
    have ha := h a (List.mem_cons_self a as)
    have hrec := ih (fun x hx => h x (List.mem_cons_of_mem a hx))
    simp [positionIdx, ha, hrec]

theorem positionIdx_append_blank (p : String → Bool) (l : List String)
    (x : String) (tl : List String) (h : ∀ y ∈ l, p y = false)
    (hx : p x = true) :
    positionIdx p (l ++ x :: tl) = some l.length := by
  induction l with
  | nil => simp [positionIdx, hx]
  | cons a as ih =>
    have ha := h a (List.mem_cons_self a as)
    have hrec := ih (fun y hy => h y (List.mem_cons_of_mem a hy))
    simp [positionIdx, ha, hrec]

theorem parseMapsLoop_first_block_error (header : String)
    (body : List String) (e : AlmanacError)
    (hheader : (header == "") = false)
    (hbody : ∀ x ∈ body, (x == "") = false)
    (he : AlMap.parse body = .error e) :
    parseMapsLoop (header :: body) = Except.error e ∧
    ∀ tl, parseMapsLoop (header :: (body ++ "" :: tl)) = Except.error e := by
  have hpb : parseBlock (header :: body) = Except.error e := by
    simp only [parseBlock]
    exact he
  constructor
  · have hp : positionIdx (fun x => x == "") (header :: body) = none := by
      apply positionIdx_eq_none
      intro y hy
      rcases List.mem_cons.mp hy with h1 | h2
      · subst h1; exact hheader
      · exact hbody y h2
    rw [parseMapsLoop]
    split
    · rename_i ind hind
      rw [hp] at hind
      cases hind
    · rw [hpb]
  · intro tl
    have hp : positionIdx (fun x => x == "")
        (header :: (body ++ "" :: tl)) = some (body.length + 1) := by
      have hall : ∀ y ∈ header :: body, (y == "") = false := by
        intro y hy
        rcases List.mem_cons.mp hy with h1 | h2
        · subst h1; exact hheader
        · exact hbody y h2
      have hres := positionIdx_append_blank (fun x => x == "")
        (header :: body) "" tl hall (by simp)
      simpa using hres
    rw [parseMapsLoop]
    split
    · rename_i ind hind
      rw [hp] at hind
      injection hind with h1
      subst h1
      have htake : (header :: (body ++ "" :: tl)).take (body.length + 1) =
          header :: body := by
        rw [List.take_succ_cons, List.take_left]
      rw [htake, hpb]
    · rename_i hnone
      rw [hp] at hnone
      cases hnone

theorem almanac_parse_error_of_loop (input : String)
    (hlen : 2 ≤ (rustLines input).length) (e : AlmanacError)
    (he : parseMapsLoop ((rustLines input).drop 2) = .error e) :
    Almanac.parse input = Except.error e := by
  cases hls : rustLines input with
  | nil =>
    rw [hls] at hlen
    simp at hlen
  | cons a t =>
    cases t with
    | nil =>
      rw [hls] at hlen
      simp at hlen
    | cons b rest =>
      rw [hls] at he
      rw [show (a :: b :: rest).drop 2 = rest from rfl] at he
      simp only [Almanac.parse, hls, List.get?_cons_zero, tailSlice2]
      rw [he]

/-- C9: a rule line that cannot be parsed into three integers makes
Range::parse return an error (a rule-string or integer-parse error, never a
value and never a panic), and the error propagates unrecovered: a stage
whose lines contain such a line fails AlMap::parse; a leading block of the
Almanac::parse loop containing the line (whether or not further blocks
follow) fails the loop with the same error as the stage parse; and a
failing block loop fails Almanac::parse with the same error. -/
theorem malformed_rule_error_propagates (line : String)
    (pre post : List String) (h : malformedLine line) :
    (∃ e, Range.parse line = Except.error e ∧ e ≠ AlmanacError.panicked) ∧
    (∃ e2, AlMap.parse (pre ++ line :: post) = Except.error e2 ∧
      (∀ header : String, (header == "") = false →
        (∀ x ∈ pre ++ line :: post, (x == "") = false) →
        parseMapsLoop (header :: (pre ++ line :: post)) = Except.error e2 ∧
        ∀ tl, parseMapsLoop (header :: ((pre ++ line :: post) ++ "" :: tl)) =
          Except.error e2)) ∧
    (∀ input : String, 2 ≤ (rustLines input).length →
      ∀ e4, parseMapsLoop ((rustLines input).drop 2) = Except.error e4 →
        Almanac.parse input = Except.error e4) := by
  obtain ⟨e, he, hne⟩ := range_parse_error_of_malformed line h
  obtain ⟨e2, he2⟩ := almap_parse_error_mem pre post line e he
  refine ⟨⟨e, he, hne⟩, ⟨e2, he2, ?_⟩, ?_⟩
  · intro header hheader hbody
    exact parseMapsLoop_first_block_error header (pre ++ line :: post) e2
      hheader hbody he2
  · intro input hlen e4 he4
    exact almanac_parse_error_of_loop input hlen e4 he4

theorem malformed_rule_error_propagates_witness :
    (∃ e, Range.parse "50 98" = Except.error e ∧
      e ≠ AlmanacError.panicked) ∧
    (∃ e2, AlMap.parse (["52 50 48"] ++ "50 98" :: []) =
      Except.error e2) := by
  have hmain := malformed_rule_error_propagates "50 98" ["52 50 48"] []
    (by decide)
  exact ⟨hmain.1, ⟨hmain.2.1.choose, hmain.2.1.choose_spec.1⟩⟩
